import Mathlib

/-!
Verification development for `scripts/update-versions.py` of the scarb-nix
repository: a sequential extract-transform-load pipeline that fetches release
entries, resolves per-release checksum manifests, merges with a previously
persisted versions file, and writes the merged result as sorted JSON.

The Python source is shallowly embedded: each Python function becomes a Lean
definition of the same name; the two network calls (`fetch_releases`,
the HTTP part of `get_version_checksums`) are passed in as function
parameters since their results come from outside the program; the filesystem
is a small explicit state.  Python strings are modelled as Lean `String`
(ASCII inputs; the regex classes `\w` and `\d` and the whitespace classes are
modelled at ASCII granularity, which covers every input appearing in this
development).  Python `dict` is modelled as an association list with
Python-dict insertion semantics (update in place when the key is present,
append otherwise), which preserves lookup, key-set and insertion-order
behaviour.
-/

namespace ScarbUpdate

/-! ## Python string primitives -/

/-- Helper for `pySplitWS`: accumulate the current token (reversed). -/
def splitWSAux : List Char → List Char → List String
  | [], cur => if cur.isEmpty then [] else [cur.reverse.asString]
  | c :: rest, cur =>
    if c.isWhitespace then
      if cur.isEmpty then splitWSAux rest []
      else cur.reverse.asString :: splitWSAux rest []
    else splitWSAux rest (c :: cur)

/-- Python `str.split()` with no separator: split on runs of whitespace,
discarding empty pieces. -/
def pySplitWS (s : String) : List String :=
  splitWSAux s.toList []

/-- Helper for `pySplitOn`: split at every occurrence of `sep`, keeping
empty pieces. -/
def splitCharAux (sep : Char) : List Char → List Char → List String
  | [], cur => [cur.reverse.asString]
  | c :: rest, cur =>
    if c = sep then cur.reverse.asString :: splitCharAux sep rest []
    else splitCharAux sep rest (c :: cur)

/-- Python `str.split(sep)` for a one-character separator: adjacent
separators and string ends produce empty pieces. -/
def pySplitOn (sep : Char) (s : String) : List String :=
  splitCharAux sep s.toList []

/-- Drop trailing characters satisfying `p` from a character list. -/
def dropTrailing (p : Char → Bool) (cs : List Char) : List Char :=
  (cs.reverse.dropWhile p).reverse

/-- Python `str.rstrip()`: remove trailing whitespace. -/
def pyRstrip (s : String) : String :=
  (dropTrailing Char.isWhitespace s.toList).asString

/-- Python `str.strip()`: remove leading and trailing whitespace. -/
def pyStrip (s : String) : String :=
  (dropTrailing Char.isWhitespace (s.toList.dropWhile Char.isWhitespace)).asString

/-- Python `str.lstrip('v')`: remove every leading `'v'` character. -/
def pyLstripV (s : String) : String :=
  (s.toList.dropWhile (fun c => c = 'v')).asString

/-- Python `str.splitlines()` restricted to the `\n`, `\r` and `\r\n` line
boundaries (the exotic Unicode boundaries never occur in this development).
A trailing line terminator does not produce a final empty line. -/
def splitlinesAux : List Char → List Char → List String
  | [], cur => if cur.isEmpty then [] else [cur.reverse.asString]
  | '\r' :: '\n' :: rest, cur => cur.reverse.asString :: splitlinesAux rest []
  | '\r' :: rest, cur => cur.reverse.asString :: splitlinesAux rest []
  | '\n' :: rest, cur => cur.reverse.asString :: splitlinesAux rest []
  | c :: rest, cur => splitlinesAux rest (c :: cur)

/-- Python `str.splitlines()`. -/
def pySplitlines (s : String) : List String :=
  splitlinesAux s.toList []

/-! ## Python dict as an association list -/

/-- `d[k] = v` on a Python dict: overwrite in place if `k` is already a key,
otherwise append the new binding. -/
def dictInsert {β : Type} (d : List (String × β)) (k : String) (v : β) :
    List (String × β) :=
  if d.any (fun p => p.1 = k) then
    d.map (fun p => if p.1 = k then (k, v) else p)
  else
    d ++ [(k, v)]

/-- `d.get(k)` / `k in d` on a Python dict. -/
def dictLookup {β : Type} (d : List (String × β)) (k : String) : Option β :=
  match d with
  | [] => none
  | (k', v) :: t => if k' = k then some v else dictLookup t k

/-- The keys of a dict, in insertion order. -/
def dictKeys {β : Type} (d : List (String × β)) : List String :=
  d.map Prod.fst

/-! ## The filename regex

`re.search(r'scarb-v[\d\.]+-([\w-]+)\.(tar\.gz|zip)', filename)`.

The search is modelled deterministically: each greedy quantifier is taken
maximally with no backtracking.  This is faithful because each quantifier's
character class excludes the literal character that follows it in the
pattern (`[\d.]` excludes `-`, `[\w-]` excludes `.`), so any shorter take
fails immediately on the following literal; and the literal `scarb-v`
cannot overlap itself, so scanning start positions left to right finds
exactly the leftmost match. -/

/-- `\w` at ASCII granularity: letters, digits, underscore. -/
def isWordChar (c : Char) : Bool := c.isAlphanum || c = '_'

/-- The class `[\d\.]`. -/
def isDigitDot (c : Char) : Bool := c.isDigit || c = '.'

/-- The class `[\w-]`. -/
def isWordDash (c : Char) : Bool := isWordChar c || c = '-'

/-- Does the pattern (first argument) occur literally at the head of the
second argument? -/
def startsWithList : List Char → List Char → Bool
  | [], _ => true
  | _ :: _, [] => false
  | p :: ps, c :: cs => p = c && startsWithList ps cs

/-- Try to match the filename pattern at this exact position; on success
return the characters of capture group 1 (the platform). -/
def matchScarbFrom (cs : List Char) : Option (List Char) :=
  if startsWithList "scarb-v".toList cs then
    let rest := cs.drop 7
    let ver := rest.takeWhile isDigitDot
    let rest1 := rest.dropWhile isDigitDot
    if ver.isEmpty then none else
    match rest1 with
    | '-' :: rest2 =>
      let plat := rest2.takeWhile isWordDash
      let rest3 := rest2.dropWhile isWordDash
      if plat.isEmpty then none else
      match rest3 with
      | '.' :: rest4 =>
        if startsWithList "tar.gz".toList rest4 || startsWithList "zip".toList rest4 then
          some plat
        else none
      | _ => none
    | _ => none
  else none

/-- `re.search` for the filename pattern: scan start positions left to
right, return group 1 of the first match. -/
def reSearchScarb : List Char → Option String
  | [] => none
  | c :: t =>
    match matchScarbFrom (c :: t) with
    | some p => some p.asString
    | none => reSearchScarb t

/-! ## `parse_checksums` -/

/-- One iteration of the `for line in text.split('\n')` loop of
`parse_checksums`.  A blank line is skipped; a line with fewer than two
whitespace-separated tokens is skipped; a line with exactly two is matched
against the filename regex; a line with three or more tokens makes the
2-ary unpacking `checksum, filename = parts` raise `ValueError`, modelled
as `Except.error`. -/
def parseChecksumLine (checksums : List (String × String)) (line : String) :
    Except Unit (List (String × String)) :=
  if pyStrip line = "" then Except.ok checksums
  else
    let parts := pySplitWS line
    if parts.length ≥ 2 then
      if parts.length = 2 then
        let checksum := parts.headD ""
        let filename := (parts.drop 1).headD ""
        match reSearchScarb filename.toList with
        | some platform => Except.ok (dictInsert checksums platform checksum)
        | none => Except.ok checksums
      else
        Except.error ()
    else
      Except.ok checksums

/-- `parse_checksums(text, version_tag)`: fold the line loop over
`text.split('\n')`.  The `version_tag` argument is only used for logging in
the source and does not influence the result. -/
def parse_checksums (text : String) (_version_tag : String) :
    Except Unit (List (String × String)) :=
  (pySplitOn '\n' text).foldlM parseChecksumLine []

/-- `get_version_checksums(version_tag)`, parametrised by the outcome of the
HTTP fetch of the manifest text (`none` models the caught
`RequestException` path, in which the function returns Python `None`).
A `ValueError` raised by `parse_checksums` is not caught and propagates. -/
def get_version_checksums (fetchText : String → Option String)
    (version_tag : String) : Except Unit (Option (List (String × String))) :=
  match fetchText version_tag with
  | none => Except.ok none
  | some text => (parse_checksums text version_tag).map some

/-! ## `process_changelog` -/

/-- Scan for the first `-->`; on success return the suffix after it. -/
def dropThroughClose : List Char → Option (List Char)
  | '-' :: '-' :: '>' :: rest => some rest
  | _ :: rest => dropThroughClose rest
  | [] => none

/-- `re.sub(r'<!--.*?-->', '', body, flags=re.DOTALL)` with explicit fuel
(structural recursion, so that it computes definitionally): repeatedly
remove the leftmost `<!--` together with everything up to and including
the nearest following `-->`; an unclosed `<!--` is left untouched (and
nothing after it can start a match, since no `-->` remains).  Each
recursive call consumes at least one character, so fuel equal to the
input length never runs out. -/
def stripCommentsFuel : Nat → List Char → List Char
  | 0, cs => cs
  | _ + 1, [] => []
  | fuel + 1, '<' :: '!' :: '-' :: '-' :: rest =>
    match dropThroughClose rest with
    | some rest' => stripCommentsFuel fuel rest'
    | none => '<' :: '!' :: '-' :: '-' :: rest
  | fuel + 1, c :: rest => c :: stripCommentsFuel fuel rest

def stripComments (cs : List Char) : List Char :=
  stripCommentsFuel cs.length cs

/-- `process_changelog(body)`.  The release body is nullable, hence
`Option String`; Python `if not body` also treats the empty string as
absent. -/
def process_changelog (body : Option String) : Option String :=
  match body with
  | none => none
  | some s =>
    if s = "" then none
    else
      let s1 := (stripComments s.toList).asString
      let s2 := String.intercalate "\n" ((pySplitlines s1).map pyRstrip)
      let s3 := pyStrip s2
      if s3 = "" then none else some s3

/-! ## Data model

The JSON shapes handled by the script, as Lean structures.  A `Release` is
one element of the list returned by the GitHub releases endpoint, with
exactly the fields the script reads; `Asset` is one element of its
`assets` array. -/

structure Asset where
  name : String
  browser_download_url : String
  size : Nat
  download_count : Nat
  created_at : String
  updated_at : String
deriving DecidableEq

structure Release where
  tag_name : String
  draft : Bool
  prerelease : Bool
  published_at : String
  body : Option String
  assets : List Asset
deriving DecidableEq

/-- The per-asset value stored under `metadata.assets`. -/
structure AssetInfo where
  url : String
  size : Nat
  download_count : Nat
  created_at : String
  updated_at : String
deriving DecidableEq

/-- `get_asset_info(release)`: dict from asset name to its info. -/
def get_asset_info (release : Release) : List (String × AssetInfo) :=
  release.assets.foldl (fun assets asset =>
    dictInsert assets asset.name
      { url := asset.browser_download_url
        size := asset.size
        download_count := asset.download_count
        created_at := asset.created_at
        updated_at := asset.updated_at }) []

/-- The `metadata` object of a persisted version entry. -/
structure Metadata where
  releaseDate : String
  prerelease : Bool
  draft : Bool
  changelog : Option String
  downloadCount : Nat
  assets : List (String × AssetInfo)
deriving DecidableEq

/-- One value of the persisted versions mapping. -/
structure VersionRecord where
  hashes : List (String × String)
  metadata : Metadata
deriving DecidableEq

/-! ## The merge loop of `update_versions_file`

The loop body is translated release by release.  The outcome of
`get_version_checksums` for each tag is a parameter
`fetchCk : String → Option (List (String × String))`: `none` is the
Python `None` returned when the manifest download fails, `some m` is a
successfully fetched and parsed mapping.  (A `ValueError` escaping
`parse_checksums` — see `parseChecksumLine` — would abort the whole run
before any write; the merge loop is modelled for runs where that does not
occur.) -/

/-- The fresh `versions[version] = {...}` record built at lines 155–165 of
the script. -/
def buildRecord (checksums : List (String × String)) (r : Release) :
    VersionRecord :=
  { hashes := checksums
    metadata :=
      { releaseDate := r.published_at
        prerelease := r.prerelease
        draft := r.draft
        changelog := process_changelog r.body
        downloadCount := (r.assets.map Asset.download_count).sum
        assets := get_asset_info r } }

/-- The record produced by the fetch-and-build path, if any: Python's
`if checksums:` is true only for a non-`None`, non-empty dict, so both a
failed fetch and an empty parsed mapping yield no record. -/
def freshRecord (fetchCk : String → Option (List (String × String)))
    (r : Release) : Option VersionRecord :=
  match fetchCk r.tag_name with
  | some cks => if cks = [] then none else some (buildRecord cks r)
  | none => none

/-- The entry (if any) that processing release `r` writes into `versions`:
drafts write nothing; a version present in `current_versions` with an
unchanged `releaseDate` is reused verbatim; otherwise the fetch-and-build
path decides.  This depends only on `current_versions` and `r`, never on
the partial result mapping — exactly as in the source, whose conditions
read only `current_versions`. -/
def entryFor (fetchCk : String → Option (List (String × String)))
    (current : List (String × VersionRecord)) (r : Release) :
    Option VersionRecord :=
  if r.draft then none
  else
    match dictLookup current (pyLstripV r.tag_name) with
    | some rec =>
      if rec.metadata.releaseDate = r.published_at then some rec
      else freshRecord fetchCk r
    | none => freshRecord fetchCk r

/-- Loop state: the result mapping, the two counters, and (for stating
cache-hit claims) the releases for which `get_version_checksums` was
invoked. -/
structure MergeState where
  versions : List (String × VersionRecord)
  processed : Nat
  skipped : Nat
  fetched : List Release
deriving DecidableEq

def initState : MergeState :=
  { versions := [], processed := 0, skipped := 0, fetched := [] }

/-- The `checksums = get_version_checksums(...)` part of the loop body
(lines 152–170): always records the resolver invocation, then either
builds a fresh record (non-empty mapping) or counts a skip. -/
def mergeFetch (fetchCk : String → Option (List (String × String)))
    (st : MergeState) (r : Release) (version : String) : MergeState :=
  let st1 := { st with fetched := st.fetched ++ [r] }
  match fetchCk r.tag_name with
  | some cks =>
    if cks = [] then { st1 with skipped := st1.skipped + 1 }
    else
      { st1 with
          versions := dictInsert st1.versions version (buildRecord cks r)
          processed := st1.processed + 1 }
  | none => { st1 with skipped := st1.skipped + 1 }

/-- One iteration of `for release in releases` (lines 130–170). -/
def mergeStep (fetchCk : String → Option (List (String × String)))
    (current : List (String × VersionRecord)) (st : MergeState)
    (r : Release) : MergeState :=
  let version := pyLstripV r.tag_name
  if r.draft then { st with skipped := st.skipped + 1 }
  else
    match dictLookup current version with
    | some rec =>
      if rec.metadata.releaseDate = r.published_at then
        { st with
            versions := dictInsert st.versions version rec
            processed := st.processed + 1 }
      else mergeFetch fetchCk st r version
    | none => mergeFetch fetchCk st r version

/-- The whole merge loop. -/
def runMerge (fetchCk : String → Option (List (String × String)))
    (current : List (String × VersionRecord)) (releases : List Release) :
    MergeState :=
  releases.foldl (mergeStep fetchCk current) initState

/-! ## JSON serialisation (`json.dump(versions, f, indent=2, sort_keys=True)`)

Keys are sorted by code points at every level, 2-space indentation,
`", "`/`": "` separators collapse to `",\n"` + indent and `": "` when an
indent is given, exactly as the Python `json` module formats it.  Strings
are escaped with `ensure_ascii=True` semantics. -/

def hexDigitChar (n : Nat) : Char :=
  if n < 10 then Char.ofNat (48 + n) else Char.ofNat (87 + n)

def hex4 (n : Nat) : String :=
  String.mk [hexDigitChar (n / 4096 % 16), hexDigitChar (n / 256 % 16),
             hexDigitChar (n / 16 % 16), hexDigitChar (n % 16)]

def jsonEscapeChar (c : Char) : String :=
  if c = '"' then "\\\""
  else if c = '\\' then "\\\\"
  else if c = '\n' then "\\n"
  else if c = '\t' then "\\t"
  else if c = '\r' then "\\r"
  else if c = Char.ofNat 8 then "\\b"
  else if c = Char.ofNat 12 then "\\f"
  else if c.toNat < 32 || c.toNat > 126 then
    if c.toNat < 65536 then "\\u" ++ hex4 c.toNat
    else
      let v := c.toNat - 65536
      "\\u" ++ hex4 (55296 + v / 1024) ++ "\\u" ++ hex4 (56320 + v % 1024)
  else String.singleton c

def jsonString (s : String) : String :=
  "\"" ++ String.join (s.toList.map jsonEscapeChar) ++ "\""

/-- Insert into a key-sorted association list, keeping it sorted. -/
def insertSorted {β : Type} (p : String × β) :
    List (String × β) → List (String × β)
  | [] => [p]
  | q :: t => if p.1 ≤ q.1 then p :: q :: t else q :: insertSorted p t

/-- Sort an association list by key (the effect of `sort_keys=True`). -/
def sortByKey {β : Type} (l : List (String × β)) : List (String × β) :=
  l.foldr insertSorted []

def spacesStr (n : Nat) : String := String.mk (List.replicate n ' ')

/-- Render a JSON object from already-rendered member values, with the
object's own indentation level `ind`. -/
def renderObj (ind : Nat) (items : List (String × String)) : String :=
  if items.isEmpty then "\x7b\x7d"
  else
    "\x7b\n" ++
    String.intercalate ",\n"
      (items.map (fun p => spacesStr (ind + 2) ++ jsonString p.1 ++ ": " ++ p.2)) ++
    "\n" ++ spacesStr ind ++ "\x7d"

def renderBool (b : Bool) : String := if b then "true" else "false"

def renderOptStr : Option String → String
  | none => "null"
  | some s => jsonString s

def renderAssetInfo (ind : Nat) (a : AssetInfo) : String :=
  renderObj ind
    [("created_at", jsonString a.created_at),
     ("download_count", toString a.download_count),
     ("size", toString a.size),
     ("updated_at", jsonString a.updated_at),
     ("url", jsonString a.url)]

def renderMetadata (ind : Nat) (m : Metadata) : String :=
  renderObj ind
    [("assets",
      renderObj (ind + 2)
        ((sortByKey m.assets).map (fun p => (p.1, renderAssetInfo (ind + 4) p.2)))),
     ("changelog", renderOptStr m.changelog),
     ("downloadCount", toString m.downloadCount),
     ("draft", renderBool m.draft),
     ("prerelease", renderBool m.prerelease),
     ("releaseDate", jsonString m.releaseDate)]

def renderRecord (ind : Nat) (rec : VersionRecord) : String :=
  renderObj ind
    [("hashes",
      renderObj (ind + 2)
        ((sortByKey rec.hashes).map (fun p => (p.1, jsonString p.2)))),
     ("metadata", renderMetadata (ind + 2) rec.metadata)]

/-- The bytes written to the versions file for a given mapping. -/
def dumpVersions (m : List (String × VersionRecord)) : String :=
  renderObj 0 ((sortByKey m).map (fun p => (p.1, renderRecord 2 p.2)))

/-! ## Filesystem state and the pipeline

The filesystem is the content at the target path `versions/versions.json`
plus the set of backup files, each file content a plain string of bytes.
`json.load` (standard library, not repository code) is passed in as a
parameter `parseJson`; `load_current_versions` treats both a missing file
and unparseable content as an empty baseline, as the source does. -/

structure FS where
  main : Option String
  backups : List (String × String)
deriving DecidableEq

def bakPath (ts : String) : String := "versions/versions.json.bak-" ++ ts

/-- `load_current_versions(versions_file)`. -/
def load_current_versions
    (parseJson : String → Option (List (String × VersionRecord)))
    (fs : FS) : List (String × VersionRecord) :=
  match fs.main with
  | none => []
  | some text =>
    match parseJson text with
    | some m => m
    | none => []

/-- `update_versions_file(versions_file)`, parametrised by the outcome of
`fetch_releases()` (`Except.error` models the fatal re-raised
`RequestException`) and of `get_version_checksums`.  On success the prior
file, if any, is renamed to the timestamped backup (`ts` is
`datetime.now().strftime("%Y%m%d_%H%M%S")`) and the new dump is written at
the original path. -/
def update_versions_file
    (parseJson : String → Option (List (String × VersionRecord)))
    (fetchR : Except Unit (List Release))
    (fetchCk : String → Option (List (String × String)))
    (ts : String) (fs : FS) : Except Unit FS :=
  let current := load_current_versions parseJson fs
  match fetchR with
  | Except.error e => Except.error e
  | Except.ok releases =>
    let st := runMerge fetchCk current releases
    match fs.main with
    | some old =>
      Except.ok
        { main := some (dumpVersions st.versions)
          backups := fs.backups ++ [(bakPath ts, old)] }
    | none =>
      Except.ok { main := some (dumpVersions st.versions), backups := fs.backups }

/-- `main()`: a failure of `update_versions_file` is caught and mapped to
exit status 1, leaving the filesystem as it was; success exits 0. -/
def script_main
    (parseJson : String → Option (List (String × VersionRecord)))
    (fetchR : Except Unit (List Release))
    (fetchCk : String → Option (List (String × String)))
    (ts : String) (fs : FS) : FS × Nat :=
  match update_versions_file parseJson fetchR fetchCk ts fs with
  | Except.ok fs' => (fs', 0)
  | Except.error _ => (fs, 1)

/-! ## Lemmas about the dict model -/

theorem dictLookup_cons {β : Type} (k₀ : String) (v₀ : β)
    (t : List (String × β)) (k : String) :
    dictLookup ((k₀, v₀) :: t) k = if k₀ = k then some v₀ else dictLookup t k :=
  rfl

theorem dictKeys_cons {β : Type} (p : String × β) (t : List (String × β)) :
    dictKeys (p :: t) = p.1 :: dictKeys t :=
  rfl

theorem dictLookup_eq_none_iff {β : Type} (d : List (String × β)) (k : String) :
    dictLookup d k = none ↔ k ∉ dictKeys d := by
  induction d with
  | nil => simp [dictLookup, dictKeys]
  | cons p t ih =>
    obtain ⟨k', v⟩ := p
    rw [dictLookup_cons, dictKeys_cons]
    by_cases h : k' = k
    · subst h
      simp
    · rw [if_neg h, ih]
      have : ¬ k = k' := fun hh => h hh.symm
      simp [this]

theorem mem_dictKeys_of_lookup {β : Type} (d : List (String × β)) (k : String)
    (v : β) (h : dictLookup d k = some v) : k ∈ dictKeys d := by
  by_contra hk
  rw [← dictLookup_eq_none_iff] at hk
  simp [hk] at h

theorem dictLookup_map_update {β : Type} (d : List (String × β)) (k k' : String)
    (v : β) :
    dictLookup (d.map (fun p => if p.1 = k then (k, v) else p)) k' =
      if k = k' then (dictLookup d k).map (fun _ => v) else dictLookup d k' := by
  induction d with
  | nil => simp [dictLookup]
  | cons p t ih =>
    obtain ⟨k₀, v₀⟩ := p
    rw [List.map_cons]
    dsimp only
    by_cases h0 : k₀ = k
    · subst h0
      rw [if_pos rfl]
      by_cases h1 : k₀ = k'
      · subst h1
        simp [dictLookup_cons]
      · simp [dictLookup_cons, h1, ih]
    · rw [if_neg h0]
      by_cases h2 : k₀ = k'
      · subst h2
        have hkk : ¬ k = k₀ := fun hh => h0 hh.symm
        simp [dictLookup_cons, hkk]
      · simp [dictLookup_cons, h0, h2, ih]

theorem dictLookup_append_single {β : Type} (d : List (String × β))
    (k k' : String) (v : β) :
    dictLookup (d ++ [(k, v)]) k' =
      match dictLookup d k' with
      | some w => some w
      | none => if k = k' then some v else none := by
  induction d with
  | nil => simp [dictLookup]
  | cons p t ih =>
    obtain ⟨k₀, v₀⟩ := p
    rw [List.cons_append, dictLookup_cons, dictLookup_cons]
    by_cases h : k₀ = k'
    · simp [h]
    · simp [h, ih]

theorem dictAny_iff_lookup {β : Type} (d : List (String × β)) (k : String) :
    d.any (fun p => p.1 = k) = true ↔ dictLookup d k ≠ none := by
  induction d with
  | nil => simp [dictLookup]
  | cons p t ih =>
    obtain ⟨k₀, v₀⟩ := p
    rw [dictLookup_cons]
    by_cases h : k₀ = k
    · simp [h]
    · simp [h, ih]

/-- The fundamental dict law: inserting `k ↦ v` makes lookup of `k` return
`v` and leaves every other key's lookup unchanged. -/
theorem dictLookup_insert {β : Type} (d : List (String × β)) (k k' : String)
    (v : β) :
    dictLookup (dictInsert d k v) k' =
      if k = k' then some v else dictLookup d k' := by
  unfold dictInsert
  split
  · next hany =>
    rw [dictLookup_map_update]
    rw [dictAny_iff_lookup] at hany
    by_cases h : k = k'
    · subst h
      obtain ⟨w, hw⟩ := Option.ne_none_iff_exists'.mp hany
      simp [hw]
    · simp [h]
  · next hany =>
    rw [dictLookup_append_single]
    have hnone : dictLookup d k = none := by
      by_contra hc
      exact hany ((dictAny_iff_lookup d k).mpr hc)
    by_cases h : k = k'
    · subst h
      simp [hnone]
    · cases hdk : dictLookup d k' <;> simp [h]

theorem dictKeys_insert {β : Type} (d : List (String × β)) (k : String) (v : β) :
    dictKeys (dictInsert d k v) =
      if d.any (fun p => p.1 = k) then dictKeys d else dictKeys d ++ [k] := by
  unfold dictInsert
  split
  · next hany =>
    simp only [hany, if_true, dictKeys, List.map_map]
    congr 1
    funext p
    by_cases h : p.1 = k <;> simp [h]
  · next hany =>
    simp [hany, dictKeys]

theorem nodup_dictKeys_insert {β : Type} (d : List (String × β)) (k : String)
    (v : β) (h : (dictKeys d).Nodup) : (dictKeys (dictInsert d k v)).Nodup := by
  rw [dictKeys_insert]
  split
  · exact h
  · next hany =>
    have hk : k ∉ dictKeys d := by
      intro hmem
      apply hany
      rw [dictAny_iff_lookup]
      intro hnone
      exact (dictLookup_eq_none_iff d k).mp hnone hmem
    simp [List.nodup_append, h, hk]

/-! ## Characterisation of the merge loop -/

/-- Whether release `r` takes the cache-hit path against the previously
persisted mapping `current` (lines 140–147 of the script). -/
def cacheHit (current : List (String × VersionRecord)) (r : Release) : Bool :=
  match dictLookup current (pyLstripV r.tag_name) with
  | some rec => rec.metadata.releaseDate = r.published_at
  | none => false

/-- One loop iteration, re-expressed field by field through `entryFor` and
`cacheHit`. -/
theorem mergeStep_eq (f : String → Option (List (String × String)))
    (cur : List (String × VersionRecord)) (st : MergeState) (r : Release) :
    mergeStep f cur st r =
      { versions :=
          match entryFor f cur r with
          | some rec => dictInsert st.versions (pyLstripV r.tag_name) rec
          | none => st.versions
        processed := st.processed + (if (entryFor f cur r).isSome then 1 else 0)
        skipped := st.skipped + (if (entryFor f cur r).isNone then 1 else 0)
        fetched := st.fetched ++ (if r.draft || cacheHit cur r then [] else [r]) } := by
  cases hd : r.draft with
  | true => simp [mergeStep, entryFor, hd]
  | false =>
    cases hlk : dictLookup cur (pyLstripV r.tag_name) with
    | some rec =>
      by_cases hdate : rec.metadata.releaseDate = r.published_at
      · simp [mergeStep, entryFor, cacheHit, hd, hlk, hdate]
      · cases hck : f r.tag_name with
        | some cks =>
          by_cases hnil : cks = []
          · simp [mergeStep, entryFor, mergeFetch, freshRecord, cacheHit,
                  hd, hlk, hdate, hck, hnil]
          · simp [mergeStep, entryFor, mergeFetch, freshRecord, cacheHit,
                  hd, hlk, hdate, hck, hnil]
        | none =>
          simp [mergeStep, entryFor, mergeFetch, freshRecord, cacheHit,
                hd, hlk, hdate, hck]
    | none =>
      cases hck : f r.tag_name with
      | some cks =>
        by_cases hnil : cks = []
        · simp [mergeStep, entryFor, mergeFetch, freshRecord, cacheHit,
                hd, hlk, hck, hnil]
        · simp [mergeStep, entryFor, mergeFetch, freshRecord, cacheHit,
                hd, hlk, hck, hnil]
      | none =>
        simp [mergeStep, entryFor, mergeFetch, freshRecord, cacheHit,
              hd, hlk, hck]

/-- One step of the "last writer for key `k`" fold that mirrors, at the
level of a single key, what the loop does to `versions`. -/
def lwStep (f : String → Option (List (String × String)))
    (cur : List (String × VersionRecord)) (k : String)
    (o : Option VersionRecord) (r : Release) : Option VersionRecord :=
  match entryFor f cur r with
  | some rec => if pyLstripV r.tag_name = k then some rec else o
  | none => o

def lwFold (f : String → Option (List (String × String)))
    (cur : List (String × VersionRecord)) (k : String)
    (o : Option VersionRecord) (rs : List Release) : Option VersionRecord :=
  rs.foldl (lwStep f cur k) o

theorem lookup_foldl_mergeStep (f : String → Option (List (String × String)))
    (cur : List (String × VersionRecord)) (rs : List Release) :
    ∀ (st : MergeState) (k : String),
      dictLookup ((rs.foldl (mergeStep f cur) st).versions) k =
        lwFold f cur k (dictLookup st.versions k) rs := by
  induction rs with
  | nil => intro st k; simp [lwFold]
  | cons r t ih =>
    intro st k
    rw [List.foldl_cons, ih]
    unfold lwFold
    rw [List.foldl_cons]
    congr 1
    rw [mergeStep_eq]
    cases he : entryFor f cur r with
    | some rec => simp [lwStep, he, dictLookup_insert, eq_comm]
    | none => simp [lwStep, he]

/-- Lookup in the final mapping is the last-writer fold from an empty
accumulator. -/
theorem dictLookup_runMerge (f : String → Option (List (String × String)))
    (cur : List (String × VersionRecord)) (rs : List Release) (k : String) :
    dictLookup ((runMerge f cur rs).versions) k = lwFold f cur k none rs := by
  rw [runMerge, lookup_foldl_mergeStep]
  simp [initState, dictLookup]

theorem skipped_foldl_mergeStep (f : String → Option (List (String × String)))
    (cur : List (String × VersionRecord)) (rs : List Release) :
    ∀ st : MergeState,
      (rs.foldl (mergeStep f cur) st).skipped =
        st.skipped + rs.countP (fun r => (entryFor f cur r).isNone) := by
  induction rs with
  | nil => intro st; simp
  | cons r t ih =>
    intro st
    rw [List.foldl_cons, ih, mergeStep_eq]
    cases he : entryFor f cur r <;> simp [he, List.countP_cons] <;> omega

theorem skipped_runMerge (f : String → Option (List (String × String)))
    (cur : List (String × VersionRecord)) (rs : List Release) :
    (runMerge f cur rs).skipped =
      rs.countP (fun r => (entryFor f cur r).isNone) := by
  rw [runMerge, skipped_foldl_mergeStep]
  simp [initState]

theorem fetched_foldl_mergeStep (f : String → Option (List (String × String)))
    (cur : List (String × VersionRecord)) (rs : List Release) :
    ∀ st : MergeState,
      (rs.foldl (mergeStep f cur) st).fetched =
        st.fetched ++ rs.filter (fun r => !r.draft && !cacheHit cur r) := by
  induction rs with
  | nil => intro st; simp
  | cons r t ih =>
    intro st
    rw [List.foldl_cons, ih, mergeStep_eq]
    cases hd : r.draft with
    | true => simp [List.filter_cons, hd]
    | false =>
      cases hc : cacheHit cur r with
      | true => simp [List.filter_cons, hd, hc]
      | false => simp [List.filter_cons, hd, hc]

/-- The resolver is invoked exactly for the non-draft releases that miss
the cache. -/
theorem fetched_runMerge (f : String → Option (List (String × String)))
    (cur : List (String × VersionRecord)) (rs : List Release) :
    (runMerge f cur rs).fetched =
      rs.filter (fun r => !r.draft && !cacheHit cur r) := by
  rw [runMerge, fetched_foldl_mergeStep]
  simp [initState]

theorem nodup_keys_foldl_mergeStep
    (f : String → Option (List (String × String)))
    (cur : List (String × VersionRecord)) (rs : List Release) :
    ∀ st : MergeState, (dictKeys st.versions).Nodup →
      (dictKeys ((rs.foldl (mergeStep f cur) st).versions)).Nodup := by
  induction rs with
  | nil => intro st h; simpa using h
  | cons r t ih =>
    intro st h
    rw [List.foldl_cons]
    apply ih
    rw [mergeStep_eq]
    cases he : entryFor f cur r with
    | some rec => simpa using nodup_dictKeys_insert _ _ _ h
    | none => simpa using h

theorem nodup_keys_runMerge (f : String → Option (List (String × String)))
    (cur : List (String × VersionRecord)) (rs : List Release) :
    (dictKeys ((runMerge f cur rs).versions)).Nodup := by
  apply nodup_keys_foldl_mergeStep
  simp [initState, dictKeys]

/-! ## Last-writer lemmas -/

theorem lwFold_no_writer (f : String → Option (List (String × String)))
    (cur : List (String × VersionRecord)) (k : String) (rs : List Release) :
    ∀ o, (∀ r ∈ rs, pyLstripV r.tag_name = k → entryFor f cur r = none) →
      lwFold f cur k o rs = o := by
  induction rs with
  | nil => intro o _; rfl
  | cons r t ih =>
    intro o h
    rw [lwFold, List.foldl_cons]
    have hstep : lwStep f cur k o r = o := by
      by_cases hk : pyLstripV r.tag_name = k
      · simp [lwStep, h r (List.mem_cons_self r t) hk]
      · cases he : entryFor f cur r <;> simp [lwStep, he, hk]
    rw [hstep]
    exact ih o (fun r' hr' => h r' (List.mem_cons_of_mem _ hr'))

theorem lwFold_stay (f : String → Option (List (String × String)))
    (cur : List (String × VersionRecord)) (k : String) (rs : List Release)
    (rec : VersionRecord)
    (h : ∀ r ∈ rs, pyLstripV r.tag_name = k →
      entryFor f cur r = none ∨ entryFor f cur r = some rec) :
    lwFold f cur k (some rec) rs = some rec := by
  induction rs with
  | nil => rfl
  | cons r t ih =>
    rw [lwFold, List.foldl_cons]
    have hstep : lwStep f cur k (some rec) r = some rec := by
      by_cases hk : pyLstripV r.tag_name = k
      · rcases h r (List.mem_cons_self r t) hk with he | he <;> simp [lwStep, he, hk]
      · cases he : entryFor f cur r <;> simp [lwStep, he, hk]
    rw [hstep]
    exact ih (fun r' hr' => h r' (List.mem_cons_of_mem _ hr'))

theorem lwFold_all_same (f : String → Option (List (String × String)))
    (cur : List (String × VersionRecord)) (k : String) (rs : List Release)
    (rec : VersionRecord)
    (h : ∀ r' ∈ rs, pyLstripV r'.tag_name = k → entryFor f cur r' = some rec) :
    ∀ o, (∃ r ∈ rs, pyLstripV r.tag_name = k) → lwFold f cur k o rs = some rec := by
  induction rs with
  | nil => intro o hex; simp at hex
  | cons r t ih =>
    intro o hex
    rw [lwFold, List.foldl_cons]
    by_cases hk : pyLstripV r.tag_name = k
    · have he := h r (List.mem_cons_self r t) hk
      have hstep : lwStep f cur k o r = some rec := by simp [lwStep, he, hk]
      rw [hstep]
      exact lwFold_stay f cur k t rec
        (fun r' hr' hk' => Or.inr (h r' (List.mem_cons_of_mem _ hr') hk'))
    · have hstep : lwStep f cur k o r = o := by
        cases he : entryFor f cur r <;> simp [lwStep, he, hk]
      rw [hstep]
      apply ih (fun r' hr' hk' => h r' (List.mem_cons_of_mem _ hr') hk')
      rcases hex with ⟨r₀, hr₀, hk₀⟩
      rcases List.mem_cons.mp hr₀ with rfl | hm
      · exact absurd hk₀ hk
      · exact ⟨r₀, hm, hk₀⟩

theorem lwFold_append (f : String → Option (List (String × String)))
    (cur : List (String × VersionRecord)) (k : String) (o : Option VersionRecord)
    (l : List Release) (r : Release) :
    lwFold f cur k o (l ++ [r]) = lwStep f cur k (lwFold f cur k o l) r := by
  rw [lwFold, List.foldl_append]
  rfl

theorem lwFold_eq_none (f : String → Option (List (String × String)))
    (cur : List (String × VersionRecord)) (k : String) (rs : List Release) :
    ∀ o, lwFold f cur k o rs = none →
      ∀ r ∈ rs, pyLstripV r.tag_name = k → entryFor f cur r = none := by
  induction rs with
  | nil => intro o _ r hr; simp at hr
  | cons r t ih =>
    intro o h r' hr' hk'
    rw [lwFold, List.foldl_cons] at h
    rcases List.mem_cons.mp hr' with rfl | hm
    · -- the step value survives to the end unless overwritten; if
      -- `entryFor` were `some`, the accumulator after this step would be
      -- `some`, and a fold result of `none` forces every accumulator on
      -- the way to be recoverable only as `none` at this position.
      cases he : entryFor f cur r' with
      | none => rfl
      | some rec =>
        exfalso
        have hstep : lwStep f cur k o r' = some rec := by simp [lwStep, he, hk']
        rw [hstep] at h
        -- a fold of lwStep starting from `some` can never end `none`
        have : ∀ (u : List Release) (w : VersionRecord),
            lwFold f cur k (some w) u ≠ none := by
          intro u
          induction u with
          | nil => intro w hc; simp [lwFold] at hc
          | cons a b ihb =>
            intro w hc
            rw [lwFold, List.foldl_cons] at hc
            cases hea : entryFor f cur a with
            | none =>
              rw [show lwStep f cur k (some w) a = some w from by simp [lwStep, hea]] at hc
              exact ihb w hc
            | some rec' =>
              by_cases hka : pyLstripV a.tag_name = k
              · rw [show lwStep f cur k (some w) a = some rec' from by
                  simp [lwStep, hea, hka]] at hc
                exact ihb rec' hc
              · rw [show lwStep f cur k (some w) a = some w from by
                  simp [lwStep, hea, hka]] at hc
                exact ihb w hc
        exact this t rec h
    · exact ih _ h r' hm hk'

theorem lwFold_some_decomp (f : String → Option (List (String × String)))
    (cur : List (String × VersionRecord)) (k : String) (rs : List Release)
    (E : VersionRecord) :
    lwFold f cur k none rs = some E →
    ∃ l w t, rs = l ++ w :: t ∧ pyLstripV w.tag_name = k ∧
      entryFor f cur w = some E ∧
      ∀ r' ∈ t, pyLstripV r'.tag_name = k → entryFor f cur r' = none := by
  induction rs using List.reverseRecOn with
  | nil => intro h; simp [lwFold] at h
  | append_singleton l r ih =>
    intro h
    rw [lwFold_append] at h
    by_cases hk : pyLstripV r.tag_name = k
    · cases he : entryFor f cur r with
      | some rec =>
        have hrec : rec = E := by
          simp only [lwStep, he] at h
          rw [if_pos hk] at h
          exact Option.some.inj h
        exact ⟨l, r, [], by simp, hk, by rw [he, hrec], by simp⟩
      | none =>
        have h' : lwFold f cur k none l = some E := by
          simp only [lwStep, he] at h
          exact h
        obtain ⟨l₁, w, t, hsplit, hwk, hwE, ht⟩ := ih h'
        refine ⟨l₁, w, t ++ [r], by rw [hsplit]; simp, hwk, hwE, ?_⟩
        intro r' hr' hk'
        rcases List.mem_append.mp hr' with h1 | h1
        · exact ht r' h1 hk'
        · have : r' = r := by simpa using h1
          rw [this]
          exact he
    · have h' : lwFold f cur k none l = some E := by
        cases he : entryFor f cur r with
        | some rec =>
          simp only [lwStep, he] at h
          rw [if_neg hk] at h
          exact h
        | none =>
          simp only [lwStep, he] at h
          exact h
      obtain ⟨l₁, w, t, hsplit, hwk, hwE, ht⟩ := ih h'
      refine ⟨l₁, w, t ++ [r], by rw [hsplit]; simp, hwk, hwE, ?_⟩
      intro r' hr' hk'
      rcases List.mem_append.mp hr' with h1 | h1
      · exact ht r' h1 hk'
      · have : r' = r := by simpa using h1
        rw [this] at hk'
        exact absurd hk' hk

theorem lwFold_last_writer (f : String → Option (List (String × String)))
    (cur : List (String × VersionRecord)) (k : String)
    (l t : List Release) (w : Release) (E : VersionRecord)
    (o : Option VersionRecord)
    (hwk : pyLstripV w.tag_name = k) (hwE : entryFor f cur w = some E)
    (ht : ∀ r' ∈ t, pyLstripV r'.tag_name = k →
      entryFor f cur r' = none ∨ entryFor f cur r' = some E) :
    lwFold f cur k o (l ++ w :: t) = some E := by
  rw [lwFold, List.foldl_append, List.foldl_cons]
  rw [show lwStep f cur k (List.foldl (lwStep f cur k) o l) w = some E from by
    simp [lwStep, hwE, hwk]]
  exact lwFold_stay f cur k t E ht

/-! ## Facts about `entryFor` -/

theorem freshRecord_releaseDate (f : String → Option (List (String × String)))
    (r : Release) (rec : VersionRecord) (h : freshRecord f r = some rec) :
    rec.metadata.releaseDate = r.published_at := by
  rw [freshRecord] at h
  cases hck : f r.tag_name with
  | some cks =>
    simp only [hck] at h
    by_cases hnil : cks = []
    · rw [if_pos hnil] at h
      exact absurd h (by simp)
    · rw [if_neg hnil] at h
      have := Option.some.inj h
      rw [← this]
      rfl
  | none =>
    simp only [hck] at h
    exact absurd h (by simp)

/-- Every record the loop writes carries the release's published
timestamp as its `releaseDate`: the cache-hit branch requires it, and a
fresh record copies it. -/
theorem entryFor_releaseDate (f : String → Option (List (String × String)))
    (cur : List (String × VersionRecord)) (r : Release) (rec : VersionRecord)
    (h : entryFor f cur r = some rec) :
    rec.metadata.releaseDate = r.published_at := by
  rw [entryFor] at h
  cases hd : r.draft with
  | true => rw [hd] at h; simp at h
  | false =>
    rw [hd] at h
    simp only [Bool.false_eq_true, if_false] at h
    cases hlk : dictLookup cur (pyLstripV r.tag_name) with
    | some rec' =>
      simp only [hlk] at h
      by_cases hdate : rec'.metadata.releaseDate = r.published_at
      · rw [if_pos hdate] at h
        rw [← Option.some.inj h]
        exact hdate
      · rw [if_neg hdate] at h
        exact freshRecord_releaseDate f r rec h
    | none =>
      simp only [hlk] at h
      exact freshRecord_releaseDate f r rec h

theorem entryFor_draft_none (f : String → Option (List (String × String)))
    (cur : List (String × VersionRecord)) (r : Release) (hd : r.draft = true) :
    entryFor f cur r = none := by
  simp [entryFor, hd]

theorem entryFor_ne_none_not_draft (f : String → Option (List (String × String)))
    (cur : List (String × VersionRecord)) (r : Release) (rec : VersionRecord)
    (h : entryFor f cur r = some rec) : r.draft = false := by
  cases hd : r.draft with
  | true => rw [entryFor_draft_none f cur r hd] at h; exact absurd h (by simp)
  | false => rfl

/-- When a release writes nothing and is not a draft, its fresh path must
have failed — independently of which `current` branch was taken. -/
theorem freshRecord_none_of_entry_none
    (f : String → Option (List (String × String)))
    (cur : List (String × VersionRecord)) (r : Release)
    (hd : r.draft = false) (h : entryFor f cur r = none) :
    freshRecord f r = none := by
  rw [entryFor, hd] at h
  simp only [Bool.false_eq_true, if_false] at h
  cases hlk : dictLookup cur (pyLstripV r.tag_name) with
  | some rec' =>
    simp only [hlk] at h
    by_cases hdate : rec'.metadata.releaseDate = r.published_at
    · rw [if_pos hdate] at h
      exact absurd h (by simp)
    · rw [if_neg hdate] at h
      exact h
  | none =>
    simp only [hlk] at h
    exact h

/-! ## Idempotence of the merge, key by key -/

/-- Merging the same release list again, with the previous run's output as
the persisted baseline, changes no key's value. -/
theorem runMerge_idem_lookup (f : String → Option (List (String × String)))
    (cur : List (String × VersionRecord)) (rs : List Release) (k : String) :
    dictLookup ((runMerge f ((runMerge f cur rs).versions) rs).versions) k =
      dictLookup ((runMerge f cur rs).versions) k := by
  set v1 := (runMerge f cur rs).versions with hv1
  have hR : dictLookup v1 k = lwFold f cur k none rs := by
    rw [hv1]; exact dictLookup_runMerge f cur rs k
  rw [dictLookup_runMerge f v1 rs k, hR]
  cases hE : lwFold f cur k none rs with
  | none =>
    apply lwFold_no_writer
    intro r hr hk
    have he0 : entryFor f cur r = none := lwFold_eq_none f cur k rs none hE r hr hk
    cases hd : r.draft with
    | true => exact entryFor_draft_none f v1 r hd
    | false =>
      have hfresh : freshRecord f r = none :=
        freshRecord_none_of_entry_none f cur r hd he0
      have hlkv : dictLookup v1 (pyLstripV r.tag_name) = none := by
        rw [hk, hR]; exact hE
      rw [entryFor, hd]
      simp only [Bool.false_eq_true, if_false, hlkv]
      exact hfresh
  | some E =>
    obtain ⟨l, w, t, hsplit, hwk, hwE, ht⟩ := lwFold_some_decomp f cur k rs E hE
    have hdate : E.metadata.releaseDate = w.published_at :=
      entryFor_releaseDate f cur w E hwE
    have hwd : w.draft = false := entryFor_ne_none_not_draft f cur w E hwE
    have hlookupE : dictLookup v1 k = some E := by rw [hR]; exact hE
    rw [hsplit]
    apply lwFold_last_writer f v1 k l t w E none hwk
    · -- the previous run's entry for `k` is reused verbatim by `w`
      have hlkw : dictLookup v1 (pyLstripV w.tag_name) = some E := by
        rw [hwk]; exact hlookupE
      rw [entryFor, hwd]
      simp only [Bool.false_eq_true, if_false, hlkw]
      rw [if_pos (show E.metadata.releaseDate = w.published_at from hdate)]
    · intro r' hr' hk'
      have he0 : entryFor f cur r' = none := ht r' hr' hk'
      cases hd' : r'.draft with
      | true => exact Or.inl (entryFor_draft_none f v1 r' hd')
      | false =>
        have hfresh : freshRecord f r' = none :=
          freshRecord_none_of_entry_none f cur r' hd' he0
        have hlk' : dictLookup v1 (pyLstripV r'.tag_name) = some E := by
          rw [hk']; exact hlookupE
        by_cases hdate' : E.metadata.releaseDate = r'.published_at
        · refine Or.inr ?_
          rw [entryFor, hd']
          simp only [Bool.false_eq_true, if_false, hlk']
          rw [if_pos hdate']
        · refine Or.inl ?_
          rw [entryFor, hd']
          simp only [Bool.false_eq_true, if_false, hlk']
          rw [if_neg hdate']
          exact hfresh

/-! ## `sortByKey`: a key-sorted dict is determined by its lookups -/

theorem mem_insertSorted {β : Type} (p q : String × β) (l : List (String × β)) :
    q ∈ insertSorted p l ↔ q = p ∨ q ∈ l := by
  induction l with
  | nil => simp [insertSorted]
  | cons a t ih =>
    rw [insertSorted]
    split
    · rw [List.mem_cons]
    · rw [List.mem_cons, ih, List.mem_cons]
      tauto

theorem mem_keys_insertSorted {β : Type} (p : String × β) (l : List (String × β))
    (x : String) :
    x ∈ dictKeys (insertSorted p l) ↔ x = p.1 ∨ x ∈ dictKeys l := by
  simp only [dictKeys, List.mem_map]
  constructor
  · rintro ⟨b, hb, rfl⟩
    rcases (mem_insertSorted p b l).mp hb with rfl | hm
    · exact Or.inl rfl
    · exact Or.inr ⟨b, hm, rfl⟩
  · rintro (rfl | ⟨b, hb, rfl⟩)
    · exact ⟨p, (mem_insertSorted p p l).mpr (Or.inl rfl), rfl⟩
    · exact ⟨b, (mem_insertSorted p b l).mpr (Or.inr hb), rfl⟩

theorem lookup_insertSorted {β : Type} (p : String × β) (l : List (String × β))
    (hp : p.1 ∉ dictKeys l) (k : String) :
    dictLookup (insertSorted p l) k =
      if p.1 = k then some p.2 else dictLookup l k := by
  induction l with
  | nil =>
    obtain ⟨kp, vp⟩ := p
    simp [insertSorted, dictLookup_cons, dictLookup]
  | cons q t ih =>
    obtain ⟨kq, vq⟩ := q
    obtain ⟨kp, vp⟩ := p
    have hpq : kp ≠ kq := by
      intro hc
      exact hp (by simp [dictKeys_cons, hc])
    have hpt : kp ∉ dictKeys t := fun hc => hp (by simp [dictKeys_cons, hc])
    rw [insertSorted]
    split
    · rw [dictLookup_cons]
    · rw [dictLookup_cons, dictLookup_cons]
      by_cases hq : kq = k
      · subst hq
        have : ¬ (kp = kq) := hpq
        simp [this]
      · simp [hq, ih hpt]

theorem nodup_keys_insertSorted {β : Type} (p : String × β)
    (l : List (String × β)) (hp : p.1 ∉ dictKeys l)
    (h : (dictKeys l).Nodup) : (dictKeys (insertSorted p l)).Nodup := by
  induction l with
  | nil => simp [insertSorted, dictKeys]
  | cons q t ih =>
    have hpq : p.1 ≠ q.1 := by
      intro hc
      exact hp (by simp [dictKeys_cons, hc])
    have hpt : p.1 ∉ dictKeys t := fun hc => hp (by simp [dictKeys_cons, hc])
    have hqt : q.1 ∉ dictKeys t := by
      have := h
      rw [dictKeys_cons] at this
      exact (List.nodup_cons.mp this).1
    have ht : (dictKeys t).Nodup := by
      have := h
      rw [dictKeys_cons] at this
      exact (List.nodup_cons.mp this).2
    rw [insertSorted]
    split
    · rw [dictKeys_cons, dictKeys_cons]
      refine List.nodup_cons.mpr ⟨?_, h⟩
      exact hp
    · rw [dictKeys_cons]
      refine List.nodup_cons.mpr ⟨?_, ih hpt ht⟩
      intro hc
      rcases (mem_keys_insertSorted p t q.1).mp hc with he | hm
      · exact hpq he.symm
      · exact hqt hm

/-- Sortedness of the keys, as used by `sortByKey`. -/
def KeySorted {β : Type} (l : List (String × β)) : Prop :=
  l.Pairwise (fun p q => p.1 ≤ q.1)

theorem keySorted_insertSorted {β : Type} (p : String × β)
    (l : List (String × β)) (h : KeySorted l) :
    KeySorted (insertSorted p l) := by
  induction l with
  | nil => simp [insertSorted, KeySorted]
  | cons q t ih =>
    obtain ⟨hq, ht⟩ := List.pairwise_cons.mp h
    rw [insertSorted]
    split
    · next hle =>
      rw [KeySorted, List.pairwise_cons]
      refine ⟨?_, h⟩
      intro b hb
      rcases List.mem_cons.mp hb with rfl | hm
      · exact hle
      · exact le_trans hle (hq b hm)
    · next hgt =>
      have hqp : q.1 ≤ p.1 := le_of_not_le hgt
      rw [KeySorted, List.pairwise_cons]
      refine ⟨?_, ih ht⟩
      intro b hb
      rcases (mem_insertSorted p b t).mp hb with rfl | hm
      · exact hqp
      · exact hq b hm

theorem sortByKey_cons {β : Type} (p : String × β) (t : List (String × β)) :
    sortByKey (p :: t) = insertSorted p (sortByKey t) :=
  rfl

theorem sortByKey_props {β : Type} (l : List (String × β))
    (h : (dictKeys l).Nodup) :
    (∀ k, dictLookup (sortByKey l) k = dictLookup l k) ∧
      (dictKeys (sortByKey l)).Nodup ∧ KeySorted (sortByKey l) := by
  induction l with
  | nil =>
    refine ⟨fun k => rfl, by simp [sortByKey, dictKeys], ?_⟩
    simp [sortByKey, KeySorted]
  | cons p t ih =>
    obtain ⟨kp, vp⟩ := p
    have hhead : kp ∉ dictKeys t := by
      rw [dictKeys_cons] at h
      exact (List.nodup_cons.mp h).1
    have htail : (dictKeys t).Nodup := by
      rw [dictKeys_cons] at h
      exact (List.nodup_cons.mp h).2
    obtain ⟨ihl, ihn, ihs⟩ := ih htail
    have hp : kp ∉ dictKeys (sortByKey t) := by
      intro hc
      have h1 : dictLookup (sortByKey t) kp ≠ none := by
        rw [Ne, dictLookup_eq_none_iff]
        simpa using hc
      rw [ihl kp, Ne, dictLookup_eq_none_iff] at h1
      exact h1 hhead
    refine ⟨?_, nodup_keys_insertSorted _ _ hp ihn,
      keySorted_insertSorted _ _ ihs⟩
    intro k
    rw [sortByKey_cons, lookup_insertSorted _ _ hp k, ihl k, dictLookup_cons]

/-- Two key-sorted dicts with duplicate-free keys and identical lookups are
equal as lists. -/
theorem keySorted_lookup_ext {β : Type} :
    ∀ (l1 l2 : List (String × β)), KeySorted l1 → KeySorted l2 →
      (dictKeys l1).Nodup → (dictKeys l2).Nodup →
      (∀ k, dictLookup l1 k = dictLookup l2 k) → l1 = l2 := by
  intro l1
  induction l1 with
  | nil =>
    intro l2 _ _ _ _ hl
    cases l2 with
    | nil => rfl
    | cons q t =>
      exfalso
      obtain ⟨kq, vq⟩ := q
      have := hl kq
      rw [dictLookup_cons] at this
      simp [dictLookup] at this
  | cons p t1 ih =>
    intro l2 hs1 hs2 hn1 hn2 hl
    obtain ⟨kp, vp⟩ := p
    cases l2 with
    | nil =>
      exfalso
      have := hl kp
      rw [dictLookup_cons] at this
      simp [dictLookup] at this
    | cons q t2 =>
      obtain ⟨kq, vq⟩ := q
      have h1 : dictLookup ((kq, vq) :: t2) kp = some vp := by
        rw [← hl kp, dictLookup_cons, if_pos rfl]
      have h2 : dictLookup ((kp, vp) :: t1) kq = some vq := by
        rw [hl kq, dictLookup_cons, if_pos rfl]
      have hle1 : kq ≤ kp := by
        have hkpmem := mem_dictKeys_of_lookup _ _ _ h1
        rw [dictKeys_cons] at hkpmem
        rcases List.mem_cons.mp hkpmem with he | hm
        · exact le_of_eq he.symm
        · obtain ⟨b, hb, hbk⟩ := List.mem_map.mp hm
          have := (List.pairwise_cons.mp hs2).1 b hb
          rw [hbk] at this
          exact this
      have hle2 : kp ≤ kq := by
        have hkqmem := mem_dictKeys_of_lookup _ _ _ h2
        rw [dictKeys_cons] at hkqmem
        rcases List.mem_cons.mp hkqmem with he | hm
        · exact le_of_eq he.symm
        · obtain ⟨b, hb, hbk⟩ := List.mem_map.mp hm
          have := (List.pairwise_cons.mp hs1).1 b hb
          rw [hbk] at this
          exact this
      have hk : kp = kq := le_antisymm hle2 hle1
      subst hk
      have hv : vp = vq := by
        have := hl kp
        rw [dictLookup_cons, dictLookup_cons, if_pos rfl, if_pos rfl] at this
        exact Option.some.inj this
      subst hv
      have hn1' : kp ∉ dictKeys t1 := by
        rw [dictKeys_cons] at hn1
        exact (List.nodup_cons.mp hn1).1
      have hn2' : kp ∉ dictKeys t2 := by
        rw [dictKeys_cons] at hn2
        exact (List.nodup_cons.mp hn2).1
      congr 1
      apply ih t2 ((List.pairwise_cons.mp hs1).2) ((List.pairwise_cons.mp hs2).2)
        (by rw [dictKeys_cons] at hn1; exact (List.nodup_cons.mp hn1).2)
        (by rw [dictKeys_cons] at hn2; exact (List.nodup_cons.mp hn2).2)
      intro k
      by_cases hkk : kp = k
      · subst hkk
        rw [(dictLookup_eq_none_iff t1 kp).mpr hn1',
            (dictLookup_eq_none_iff t2 kp).mpr hn2']
      · have := hl k
        rw [dictLookup_cons, dictLookup_cons, if_neg hkk, if_neg hkk] at this
        exact this

/-- Two mappings with duplicate-free keys and identical lookups serialise
to the same bytes (the writer sorts keys). -/
theorem dumpVersions_eq_of_lookup_eq (m1 m2 : List (String × VersionRecord))
    (hn1 : (dictKeys m1).Nodup) (hn2 : (dictKeys m2).Nodup)
    (hl : ∀ k, dictLookup m1 k = dictLookup m2 k) :
    dumpVersions m1 = dumpVersions m2 := by
  obtain ⟨hl1, hnn1, hs1⟩ := sortByKey_props m1 hn1
  obtain ⟨hl2, hnn2, hs2⟩ := sortByKey_props m2 hn2
  have hsort : sortByKey m1 = sortByKey m2 :=
    keySorted_lookup_ext _ _ hs1 hs2 hnn1 hnn2
      (fun k => by rw [hl1 k, hl2 k, hl k])
  rw [dumpVersions, dumpVersions, hsort]

/-! ## Further helper lemmas for the claims -/

theorem entryFor_of_not_cacheHit (f : String → Option (List (String × String)))
    (cur : List (String × VersionRecord)) (r : Release)
    (hd : r.draft = false) (hmiss : cacheHit cur r = false) :
    entryFor f cur r = freshRecord f r := by
  rw [entryFor, hd]
  simp only [Bool.false_eq_true, if_false]
  rw [cacheHit] at hmiss
  cases hlk : dictLookup cur (pyLstripV r.tag_name) with
  | some rec =>
    simp only [hlk] at hmiss ⊢
    rw [if_neg (by simpa using hmiss)]
  | none => simp only [hlk]

theorem update_ok_main
    (parseJson : String → Option (List (String × VersionRecord)))
    (f : String → Option (List (String × String)))
    (releases : List Release) (ts : String) (fs fs' : FS)
    (h : update_versions_file parseJson (Except.ok releases) f ts fs =
      Except.ok fs') :
    fs'.main = some (dumpVersions
      ((runMerge f (load_current_versions parseJson fs) releases).versions)) := by
  rw [update_versions_file] at h
  cases hm : fs.main with
  | some old =>
    simp only [hm] at h
    rw [← Except.ok.inj h]
  | none =>
    simp only [hm] at h
    rw [← Except.ok.inj h]

/-! ## Concrete data used in witnesses and counterexamples -/

/-- A plain non-draft release. -/
def relA : Release :=
  { tag_name := "v1.0.0", draft := false, prerelease := false
    published_at := "2024-01-01T00:00:00Z", body := none, assets := [] }

/-- A draft release with the same version key as `relA`. -/
def relD : Release :=
  { tag_name := "v1.0.0", draft := true, prerelease := false
    published_at := "2024-02-02T00:00:00Z", body := none, assets := [] }

/-- A stored record whose `releaseDate` matches `relA`'s timestamp. -/
def recA : VersionRecord :=
  { hashes := [("x86_64-linux", "abcd1234")]
    metadata :=
      { releaseDate := "2024-01-01T00:00:00Z", prerelease := false
        draft := false, changelog := none, downloadCount := 0, assets := [] } }

def fsW0 : FS := { main := none, backups := [] }

def pW : String → Option (List (String × VersionRecord)) :=
  fun s => if s = dumpVersions [] then some [] else none

def fW : String → Option (List (String × String)) := fun _ => none

def fsW1 : FS := { main := some (dumpVersions []), backups := [] }

def fsW2 : FS :=
  { main := some (dumpVersions [])
    backups := [(bakPath "t2", dumpVersions [])] }

/-! ## The claims -/

/-- C1, counterexample: a successful manifest fetch whose parsed mapping is
empty does *not* lead to a fresh `VersionRecord` — Python's
`if checksums:` is false for the empty dict, so the non-draft release
`relA` is skipped (and counted as skipped) even though the resolver
returned `some []` rather than the `none` failure signal. -/
theorem C1_empty_manifest_is_skipped :
    relA.draft = false ∧
    (fun _ => some ([] : List (String × String))) relA.tag_name = some [] ∧
    (runMerge (fun _ => some []) [] [relA]).versions = [] ∧
    (runMerge (fun _ => some []) [] [relA]).skipped = 1 := by
  refine ⟨rfl, rfl, ?_, ?_⟩ <;> decide

/-- C1, amended: for a non-draft release that misses the cache and whose
version key no other fetched release shares, the three resolver outcomes
decide the result as follows — a fetch returning a *non-empty* mapping
`m` puts a fresh record built from `m` in the output; a fetch returning
an *empty* mapping leaves the version out of the output and counted as
skipped; a *failed* fetch (the `none` signal) likewise leaves the version
out of the output and counted as skipped. -/
theorem C1_fresh_record_iff_nonempty
    (f : String → Option (List (String × String)))
    (cur : List (String × VersionRecord)) (rs : List Release) (r : Release)
    (hr : r ∈ rs) (hd : r.draft = false)
    (hmiss : cacheHit cur r = false)
    (huniq : ∀ r' ∈ rs, pyLstripV r'.tag_name = pyLstripV r.tag_name → r' = r) :
    (∀ m, f r.tag_name = some m → m ≠ [] →
      dictLookup ((runMerge f cur rs).versions) (pyLstripV r.tag_name) =
        some (buildRecord m r)) ∧
    (∀ m, f r.tag_name = some m → m = [] →
      dictLookup ((runMerge f cur rs).versions) (pyLstripV r.tag_name) = none ∧
      1 ≤ (runMerge f cur rs).skipped) ∧
    (f r.tag_name = none →
      dictLookup ((runMerge f cur rs).versions) (pyLstripV r.tag_name) = none ∧
      1 ≤ (runMerge f cur rs).skipped) := by
  have hfresh : entryFor f cur r = freshRecord f r :=
    entryFor_of_not_cacheHit f cur r hd hmiss
  have skipOf : entryFor f cur r = none →
      dictLookup ((runMerge f cur rs).versions) (pyLstripV r.tag_name) = none ∧
      1 ≤ (runMerge f cur rs).skipped := by
    intro hentry
    constructor
    · rw [dictLookup_runMerge]
      apply lwFold_no_writer
      intro r' hr' hk'
      rw [huniq r' hr' hk']
      exact hentry
    · rw [skipped_runMerge]
      have hpos : 0 < rs.countP (fun r' => (entryFor f cur r').isNone) :=
        List.countP_pos_iff.mpr ⟨r, hr, by simp [hentry]⟩
      omega
  refine ⟨?_, ?_, ?_⟩
  · intro m hck hne
    have hentry : entryFor f cur r = some (buildRecord m r) := by
      rw [hfresh, freshRecord]
      simp only [hck]
      rw [if_neg hne]
    rw [dictLookup_runMerge]
    apply lwFold_all_same f cur _ rs (buildRecord m r)
    · intro r' hr' hk'
      rw [huniq r' hr' hk']
      exact hentry
    · exact ⟨r, hr, rfl⟩
  · intro m hck hnil
    apply skipOf
    rw [hfresh, freshRecord]
    simp only [hck]
    rw [if_pos hnil]
  · intro hck
    apply skipOf
    rw [hfresh, freshRecord]
    simp only [hck]

theorem C1_fresh_record_iff_nonempty_witness :
    (dictLookup ((runMerge (fun _ => some [("x86_64-linux", "abcd1234")])
        [] [relA]).versions) (pyLstripV relA.tag_name) =
      some (buildRecord [("x86_64-linux", "abcd1234")] relA)) ∧
    (dictLookup ((runMerge (fun _ => some []) [] [relA]).versions)
        (pyLstripV relA.tag_name) = none ∧
      1 ≤ (runMerge (fun _ => some ([] : List (String × String)))
        [] [relA]).skipped) ∧
    (dictLookup ((runMerge (fun _ => none) [] [relA]).versions)
        (pyLstripV relA.tag_name) = none ∧
      1 ≤ (runMerge (fun _ => (none : Option (List (String × String))))
        [] [relA]).skipped) :=
  ⟨(C1_fresh_record_iff_nonempty (fun _ => some [("x86_64-linux", "abcd1234")])
      [] [relA] relA (by decide) rfl rfl (by decide)).1
      [("x86_64-linux", "abcd1234")] rfl (by decide),
   (C1_fresh_record_iff_nonempty (fun _ => some []) [] [relA] relA
      (by decide) rfl rfl (by decide)).2.1 [] rfl rfl,
   (C1_fresh_record_iff_nonempty (fun _ => none) [] [relA] relA
      (by decide) rfl rfl (by decide)).2.2 rfl⟩

/-- C2: a manifest line whose whitespace split yields three tokens is not
silently skipped: the 2-ary unpacking `checksum, filename = parts` (guarded
only by `len(parts) >= 2`) raises `ValueError`, aborting the parse — while
a one-token line really is skipped without error. -/
theorem C2_extra_token_line_raises :
    parse_checksums
      "abcd1234 scarb-v1.0.0-x86_64-linux.tar.gz\ndeadbeef file-a extra"
      "v1.0.0" = Except.error () ∧
    parse_checksums "onlyonetoken" "v1.0.0" = Except.ok [] :=
  ⟨by rfl, by rfl⟩

/-- C3, counterexample: cleaning the body
`"before\n<!-- hidden -->\nafter  \n"` does not produce
`"before\nafter"` — removing the comment leaves its line blank, and
interior blank lines are not collapsed. -/
theorem C3_example_not_collapsed :
    process_changelog (some "before\n<!-- hidden -->\nafter  \n") ≠
      some "before\nafter" := by
  decide

/-- C3, amended: cleaning that body yields `"before\n\nafter"`: the HTML
comment is removed, each line loses its trailing whitespace, leading and
trailing blank lines are trimmed, but the blank line left where the
comment stood is kept. -/
theorem C3_cleanup_keeps_blank_line :
    process_changelog (some "before\n<!-- hidden -->\nafter  \n") =
      some "before\n\nafter" := by
  decide

/-- C4: a non-draft release whose version key is stored with an unchanged
`releaseDate` (and whose key no other fetched release shares) has its
stored record reused verbatim in the output, and the checksum resolver is
never invoked for it. -/
theorem C4_cache_hit_reuses_record
    (f : String → Option (List (String × String)))
    (cur : List (String × VersionRecord)) (rs : List Release) (r : Release)
    (rec : VersionRecord)
    (hr : r ∈ rs) (hd : r.draft = false)
    (hlk : dictLookup cur (pyLstripV r.tag_name) = some rec)
    (hdate : rec.metadata.releaseDate = r.published_at)
    (huniq : ∀ r' ∈ rs, pyLstripV r'.tag_name = pyLstripV r.tag_name → r' = r) :
    dictLookup ((runMerge f cur rs).versions) (pyLstripV r.tag_name) =
      some rec ∧
    r ∉ (runMerge f cur rs).fetched := by
  have hentry : entryFor f cur r = some rec := by
    rw [entryFor, hd]
    simp only [Bool.false_eq_true, if_false, hlk]
    rw [if_pos hdate]
  constructor
  · rw [dictLookup_runMerge]
    apply lwFold_all_same f cur _ rs rec
    · intro r' hr' hk'
      rw [huniq r' hr' hk']
      exact hentry
    · exact ⟨r, hr, rfl⟩
  · rw [fetched_runMerge]
    intro hc
    have hpred := List.of_mem_filter hc
    have hch : cacheHit cur r = true := by
      rw [cacheHit, hlk]
      simp [hdate]
    simp [hd, hch] at hpred

theorem C4_cache_hit_reuses_record_witness :
    dictLookup ((runMerge (fun _ => none) [("1.0.0", recA)] [relA]).versions)
        (pyLstripV relA.tag_name) = some recA ∧
    relA ∉ (runMerge (fun _ => none) [("1.0.0", recA)] [relA]).fetched :=
  C4_cache_hit_reuses_record (fun _ => none) [("1.0.0", recA)] [relA] relA recA
    (by decide) rfl (by decide) rfl (by decide)

/-- C5: a draft release's version key never appears in the output mapping
— whatever the previously persisted record contains — as long as every
fetched release carrying that key is itself a draft; and each draft is
counted in the skipped counter. -/
theorem C5_drafts_never_in_output
    (f : String → Option (List (String × String)))
    (cur : List (String × VersionRecord)) (rs : List Release) (r : Release)
    (hr : r ∈ rs) (hd : r.draft = true)
    (hall : ∀ r' ∈ rs, pyLstripV r'.tag_name = pyLstripV r.tag_name →
      r'.draft = true) :
    dictLookup ((runMerge f cur rs).versions) (pyLstripV r.tag_name) = none ∧
    (rs.filter (fun r' => r'.draft)).length ≤ (runMerge f cur rs).skipped := by
  constructor
  · rw [dictLookup_runMerge]
    apply lwFold_no_writer
    intro r' hr' hk'
    exact entryFor_draft_none f cur r' (hall r' hr' hk')
  · rw [skipped_runMerge, ← List.countP_eq_length_filter]
    apply List.countP_mono_left
    intro r' _ hd'
    simp [entryFor_draft_none f cur r' (by simpa using hd')]

theorem C5_drafts_never_in_output_witness :
    dictLookup ((runMerge (fun _ => some [("x86_64-linux", "ff")])
        [("1.0.0", recA)] [relD]).versions) (pyLstripV relD.tag_name) = none ∧
    ([relD].filter (fun r' => r'.draft)).length ≤
      (runMerge (fun _ => some [("x86_64-linux", "ff")])
        [("1.0.0", recA)] [relD]).skipped :=
  C5_drafts_never_in_output (fun _ => some [("x86_64-linux", "ff")])
    [("1.0.0", recA)] [relD] relD (by decide) rfl (by decide)

/-- C6: when the release-list fetch fails, the pipeline exits with status
1 and the filesystem — in particular any previously persisted versions
file — is returned exactly as it was: no write, no rename. -/
theorem C6_fetch_failure_aborts
    (parseJson : String → Option (List (String × VersionRecord)))
    (f : String → Option (List (String × String))) (ts : String) (fs : FS) :
    script_main parseJson (Except.error ()) f ts fs = (fs, 1) :=
  rfl

/-- C7: running the pipeline twice with the same release list and the same
manifest outcomes writes byte-identical content at the versions path on
the second run (`hparse` states that `json.load` inverts `json.dump` on
the first run's output). -/
theorem C7_second_run_byte_identical
    (parseJson : String → Option (List (String × VersionRecord)))
    (f : String → Option (List (String × String)))
    (releases : List Release) (ts1 ts2 : String) (fs0 fs1 fs2 : FS)
    (h1 : update_versions_file parseJson (Except.ok releases) f ts1 fs0 =
      Except.ok fs1)
    (h2 : update_versions_file parseJson (Except.ok releases) f ts2 fs1 =
      Except.ok fs2)
    (hparse : parseJson (dumpVersions
        ((runMerge f (load_current_versions parseJson fs0) releases).versions)) =
      some ((runMerge f (load_current_versions parseJson fs0) releases).versions)) :
    fs2.main = fs1.main := by
  have hfs1main := update_ok_main parseJson f releases ts1 fs0 fs1 h1
  have hfs2main := update_ok_main parseJson f releases ts2 fs1 fs2 h2
  have hload1 : load_current_versions parseJson fs1 =
      (runMerge f (load_current_versions parseJson fs0) releases).versions := by
    rw [load_current_versions]
    simp only [hfs1main, hparse]
  rw [hfs2main, hfs1main, hload1]
  congr 1
  apply dumpVersions_eq_of_lookup_eq
  · exact nodup_keys_runMerge f _ releases
  · exact nodup_keys_runMerge f _ releases
  · intro k
    exact runMerge_idem_lookup f (load_current_versions parseJson fs0) releases k

theorem C7_second_run_byte_identical_witness : fsW2.main = fsW1.main :=
  C7_second_run_byte_identical pW fW [] "t1" "t2" fsW0 fsW1 fsW2 rfl rfl rfl

/-- C8: the line `"abcd1234 scarb-v1.2.3-x86_64-linux.tar.gz"` parses to
the single-entry mapping; a one-token line adds nothing; a two-token line
whose filename does not match the `scarb-v` pattern adds nothing, with no
error in either case. -/
theorem C8_parse_checksums_examples :
    parse_checksums "abcd1234 scarb-v1.2.3-x86_64-linux.tar.gz" "v1.2.3" =
      Except.ok [("x86_64-linux", "abcd1234")] ∧
    parse_checksums "abcd1234 scarb-v1.2.3-x86_64-linux.tar.gz\nonlyonetoken"
      "v1.2.3" = Except.ok [("x86_64-linux", "abcd1234")] ∧
    parse_checksums
      "abcd1234 scarb-v1.2.3-x86_64-linux.tar.gz\ndeadbeef something-else.tar.gz"
      "v1.2.3" = Except.ok [("x86_64-linux", "abcd1234")] :=
  ⟨by rfl, by rfl, by rfl⟩

/-- C10: the version key strips *every* leading `'v'` from the tag —
`lstrip('v')` removes a character set, not a single prefix — so the tags
`"v1.2.3"` and `"vv1.2.3"` collide onto the single key `"1.2.3"` in the
merged output. -/
theorem C10_lstrip_strips_all_leading_vs :
    (∀ t : String, pyLstripV ("v" ++ t) = pyLstripV t) ∧
    pyLstripV "v1.2.3" = "1.2.3" ∧
    pyLstripV "vv1.2.3" = "1.2.3" ∧
    dictKeys ((runMerge (fun _ => some [("x86_64-linux", "aa")]) []
      [{ tag_name := "v1.2.3", draft := false, prerelease := false,
         published_at := "d1", body := none, assets := [] },
       { tag_name := "vv1.2.3", draft := false, prerelease := false,
         published_at := "d2", body := none, assets := [] }]).versions) =
      ["1.2.3"] := by
  exact ⟨fun _ => rfl, by decide, by decide, by decide⟩

/-- C9: when a versions file already exists, a successful run moves the old
content aside under exactly one new timestamped backup name (a rename, so
the old bytes survive only there) and writes the freshly serialised,
key-sorted mapping at the original path. -/
theorem C9_backup_then_write
    (parseJson : String → Option (List (String × VersionRecord)))
    (f : String → Option (List (String × String)))
    (releases : List Release) (ts : String) (fs : FS) (old : String)
    (h : fs.main = some old) :
    ∃ fs', update_versions_file parseJson (Except.ok releases) f ts fs =
        Except.ok fs' ∧
      fs'.main = some (dumpVersions
        ((runMerge f (load_current_versions parseJson fs) releases).versions)) ∧
      fs'.backups = fs.backups ++ [(bakPath ts, old)] := by
  refine ⟨FS.mk (some (dumpVersions
      ((runMerge f (load_current_versions parseJson fs) releases).versions)))
      (fs.backups ++ [(bakPath ts, old)]), ?_, rfl, rfl⟩
  rw [update_versions_file]
  simp only [h]

theorem C9_backup_then_write_witness :
    ∃ fs', update_versions_file pW (Except.ok []) fW "t2" fsW1 =
        Except.ok fs' ∧
      fs'.main = some (dumpVersions
        ((runMerge fW (load_current_versions pW fsW1) []).versions)) ∧
      fs'.backups = fsW1.backups ++ [(bakPath "t2", dumpVersions [])] :=
  C9_backup_then_write pW fW [] "t2" fsW1 (dumpVersions []) rfl

end ScarbUpdate
